import Mathlib

/-!
Verification of the classroom-availability core of the `tuk_sandol_team`
repository, shallowly embedded from `src/sandol/crawler/classroom_parser.py`
and `src/sandol/crawler/classroom.py`.

Times are represented as minutes after midnight (a `Nat`): the Python code
works with `datetime` values sharing one date, whose ordering and
subtraction coincide with minute arithmetic.  Python dicts keyed by strings
are represented as insertion-ordered association lists.  Fallible Python
code (a `raise`) is represented with `Except String`.
-/

namespace Sandol

instance {ε α : Type} [DecidableEq ε] [DecidableEq α] : DecidableEq (Except ε α) := fun x y =>
  match x, y with
  | .ok a, .ok b =>
    if h : a = b then isTrue (by rw [h]) else isFalse (by intro hh; cases hh; exact h rfl)
  | .error a, .error b =>
    if h : a = b then isTrue (by rw [h]) else isFalse (by intro hh; cases hh; exact h rfl)
  | .ok _, .error _ => isFalse (by intro h; cases h)
  | .error _, .ok _ => isFalse (by intro h; cases h)

/-! ## String primitives

Python string operations used by the source (`str.split`, `str.strip`,
`str.replace`, `str.startswith`, substring containment, codepoint
comparison, decimal parsing) are embedded structurally over `List Char`
so that every definition evaluates by kernel reduction. -/

/-- Strip `pat` from the front of `cs`, if it is a prefix. -/
def dropStart? : List Char → List Char → Option (List Char)
  | [], cs => some cs
  | _ :: _, [] => none
  | p :: ps, c :: cs => if p == c then dropStart? ps cs else none

/-- Python `str.split(pat)` for nonempty `pat`: cut at every leftmost,
non-overlapping occurrence.  The fuel starts at `length + 1`, which bounds
the number of steps since each step either consumes the (nonempty) pattern
or one character, apart from the final step on the empty remainder. -/
def pySplitAux (pat : List Char) : Nat → List Char → List Char → List (List Char)
  | 0, acc, cs => [acc.reverse ++ cs]
  | fuel + 1, acc, cs =>
    match dropStart? pat cs with
    | some rest => acc.reverse :: pySplitAux pat fuel [] rest
    | none =>
      match cs with
      | [] => [acc.reverse]
      | c :: cs' => pySplitAux pat fuel (c :: acc) cs'

def pySplitL (pat cs : List Char) : List (List Char) := pySplitAux pat (cs.length + 1) [] cs

def pySplit (s pat : String) : List String := (pySplitL pat.data s.data).map String.mk

/-- Python `s.replace(pat, '')`: remove every leftmost, non-overlapping
occurrence of `pat`. -/
def pyReplace (s pat : String) : String := String.mk (pySplitL pat.data s.data).flatten

/-- Python `str.strip()`: drop whitespace from both ends. -/
def pyStrip (s : String) : String :=
  String.mk (((s.data.dropWhile Char.isWhitespace).reverse.dropWhile Char.isWhitespace).reverse)

def startsWithL : List Char → List Char → Bool
  | [], _ => true
  | _ :: _, [] => false
  | p :: ps, c :: cs => p == c && startsWithL ps cs

/-- Python `s.startswith(pat)`. -/
def pyStartsWith (s pat : String) : Bool := startsWithL pat.data s.data

/-- Python substring containment `pat in s`, for nonempty `pat`. -/
def containsSub (s pat : String) : Bool := 1 < (pySplitL pat.data s.data).length

/-- Decimal parsing of a nonempty all-digit string (the digit part of
`strptime`). -/
def pyToNat? (s : String) : Option Nat :=
  if !s.data.isEmpty && s.data.all Char.isDigit then
    some (s.data.foldl (fun a c => 10 * a + (c.toNat - 48)) 0)
  else none

/-- Codepoint-lexicographic strict comparison of strings (Python `str <`),
as used by the tabular sort on string columns. -/
def ltChars : List Char → List Char → Bool
  | [], [] => false
  | [], _ :: _ => true
  | _ :: _, [] => false
  | a :: as, b :: bs =>
    if a.toNat < b.toNat then true
    else if b.toNat < a.toNat then false
    else ltChars as bs

/-! ## The time/room string grammar of `LectureParser.parse_lecture_time`

The Python code matches the regex
`(?P<day>\w+)\s*\[(?P<start_end>\d+~?\d*)\]\s*(?P<start_time>\d{2}:\d{2})~(?P<end_time>\d{2}:\d{2})`
with `re.finditer`, and `\((?P<room>.+)\)$` with `re.search`.  Both patterns
are deterministic (greedy quantifiers never need to backtrack into each
other for these patterns), so they are embedded as direct scanners over
`List Char`.  `\w` is modelled as ASCII alphanumeric, underscore, or any
non-ASCII codepoint: on the alphabet occurring in schedule strings (Hangul
day names and rooms, ASCII digits and the metacharacters of the grammar)
this agrees with Python's unicode `\w`.  `$` is modelled as end-of-string
(schedule cells carry no trailing newline). -/

def isWordChar (c : Char) : Bool := c.isAlphanum || c == '_' || decide (0x80 ≤ c.toNat)

/-- One match of the day/time regex: the named groups `day`, `start_time`,
`end_time` (the `start_end` group is never read by the Python code). -/
structure TimeTok where
  day : String
  start_time : String
  end_time : String
deriving DecidableEq, Repr

/-- Match `\d{2}:\d{2}` at the head of the character list, returning the
matched text and the rest. -/
def matchClock : List Char → Option (String × List Char)
  | a :: b :: ':' :: c :: d :: rest =>
    if a.isDigit && b.isDigit && c.isDigit && d.isDigit then
      some (String.mk [a, b, ':', c, d], rest)
    else none
  | _ => none

/-- Attempt the time pattern anchored at the head of `cs`:
`\w+ \s* \[ \d+ ~? \d* \] \s* HH:MM ~ HH:MM`. -/
def matchTime (cs : List Char) : Option (TimeTok × List Char) :=
  let dayCs := cs.takeWhile isWordChar
  let r1 := cs.dropWhile isWordChar
  if dayCs.isEmpty then none else
  match r1.dropWhile Char.isWhitespace with
  | '[' :: r3 =>
    let d1 := r3.takeWhile Char.isDigit
    let r4 := r3.dropWhile Char.isDigit
    if d1.isEmpty then none else
    let r5 := match r4 with
      | '~' :: rr => rr.dropWhile Char.isDigit
      | _ => r4
    match r5 with
    | ']' :: r6 =>
      match matchClock (r6.dropWhile Char.isWhitespace) with
      | some (st, r7) =>
        match r7 with
        | '~' :: r8 =>
          match matchClock r8 with
          | some (et, r9) => some (⟨String.mk dayCs, st, et⟩, r9)
          | none => none
        | _ => none
      | none => none
    | _ => none
  | _ => none

/-- Model of `re.finditer` over the time pattern: try each start position from the
left; on a match, continue after its end (matches are non-overlapping).
The fuel argument is initialised with the length of the string, which
bounds the number of scanning steps since every match consumes at least
one character (the day group is nonempty). -/
def scanTimes : Nat → List Char → List TimeTok
  | 0, _ => []
  | _, [] => []
  | fuel + 1, c :: rest =>
    match matchTime (c :: rest) with
    | some (tok, r) => tok :: scanTimes fuel r
    | none => scanTimes fuel rest

def findTimeMatches (s : String) : List TimeTok :=
  scanTimes s.data.length s.data

/-- Model of `re.search` of `\((?P<room>.+)\)$`: the leftmost `(` that is followed by
at least one character and a final `)`, with the greedy `.+` spanning to
that final `)` (and `.` not crossing a newline). -/
def roomSearchAux : List Char → Option String
  | [] => none
  | '(' :: rest =>
    if 2 ≤ rest.length && rest.getLast? == some ')' && !(rest.dropLast.contains '\n') then
      some (String.mk rest.dropLast)
    else roomSearchAux rest
  | _ :: rest => roomSearchAux rest

def searchRoom (s : String) : Option String :=
  roomSearchAux s.data

def excludedKeywords : List String := ["온라인", "미배정", "연구실"]

/-- One entry of the list returned by `parse_lecture_time`.  The Python
entry is a dict always holding keys `day`, `start_time`, `end_time` and
`room: None`; the keys `room_a` and `room_b` are only added when the room
pattern matched, which `rooms` records: `none` means the two keys are
absent from the dict, `some (a, b)` means they are present with the given
(possibly `None`) values. -/
structure Token where
  day : String
  start_time : String
  end_time : String
  rooms : Option (Option String × Option String)
deriving DecidableEq, Repr

/-- Embedding of `LectureParser.parse_lecture_time` (classroom_parser.py lines 11-34).
The `ValueError("room is more than 2")` raised when the room list has more
than two entries is modelled as `Except.error`; note the Python `raise`
sits inside `for entry in result`, so it fires only when at least one time
segment was matched. -/
def parse_lecture_time (lecture_time : String) : Except String (List Token) :=
  let result : List Token :=
    (findTimeMatches lecture_time).map fun t => ⟨t.day, t.start_time, t.end_time, none⟩
  match searchRoom lecture_time with
  | none => .ok result
  | some room_info =>
    if excludedKeywords.any (fun k => containsSub room_info k) then .ok []
    else
      let room_list := pySplit room_info ","
      if result.isEmpty then .ok result
      else if 2 < room_list.length then .error "room is more than 2"
      else
        let ra := if 0 < room_list.length then some (pyStrip (room_list.getD 0 "")) else none
        let rb := if 1 < room_list.length then some (pyStrip (room_list.getD 1 "")) else none
        .ok (result.map fun t => { t with rooms := some (ra, rb) })

/-- One input spreadsheet row: the `강의시간` description cell plus the
passthrough fields (represented opaquely by a label). -/
structure RawRow where
  passthrough : String
  lecture_time : String
deriving DecidableEq, Repr

/-- One row of the DataFrame built by `expand_lecture_times`. -/
structure ExpandedRecord where
  passthrough : String
  Day : String
  FreeFrom : String
  FreeTo : String
  RoomA : Option String
  RoomB : Option String
deriving DecidableEq, Repr

/-- The inner loop of `expand_lecture_times` (lines 40-47): build one
`ExpandedRecord` per parsed token, in order.  Reading
`parsed_time['room_a']` raises `KeyError` when the parser attached no room
keys to the token. -/
def tokensToRecords (row : RawRow) : List Token → Except String (List ExpandedRecord)
  | [] => .ok []
  | t :: ts =>
    match t.rooms with
    | none => .error "KeyError: room_a"
    | some (a, b) => do
      let rest ← tokensToRecords row ts
      .ok (⟨row.passthrough, t.day, t.start_time, t.end_time, a, b⟩ :: rest)

/-- Expansion of a single row (the body of the outer loop, lines 38-47). -/
def expandRow (row : RawRow) : Except String (List ExpandedRecord) := do
  let parsed ← parse_lecture_time row.lecture_time
  tokensToRecords row parsed

/-- Embedding of `LectureParser.expand_lecture_times` (lines 36-48): rows are processed
in order and their expansions concatenated; any exception aborts the whole
loop and propagates. -/
def expand_lecture_times : List RawRow → Except String (List ExpandedRecord)
  | [] => .ok []
  | row :: rest => do
    let xs ← expandRow row
    let ys ← expand_lecture_times rest
    .ok (xs ++ ys)

/-! ## `RoomScheduler` (classroom_parser.py lines 51-132) -/

/-- The list `self.buildings` (line 54). -/
def buildings : List String := ["A동", "B동", "C동", "D동", "E동", "F동", "G동", "종합", "TIP", "산융", "비즈"]

/-- The list `self.days` (line 55). -/
def days : List String := ["월", "화", "수", "목", "금", "토"]

/-- Model of `datetime.strptime(s, "%H:%M")`, returning minutes after midnight:
one or two digits of hour below 24, a colon, one or two digits of minute
below 60, nothing else. -/
def parseHM (s : String) : Option Nat :=
  match pySplit s ":" with
  | [h, m] =>
    match pyToNat? h, pyToNat? m with
    | some hv, some mv =>
      if 0 < h.length && h.length ≤ 2 && 0 < m.length && m.length ≤ 2
          && hv < 24 && mv < 60 then
        some (60 * hv + mv)
      else none
    | _, _ => none
  | _ => none

/-- Line 66: `next((b for b in self.buildings if single_room.startswith(b)), None)`
together with line 69: `single_room.replace(building, '').strip()`. -/
def resolveRoom (single_room : String) : Option (String × String) :=
  match buildings.find? (fun b => pyStartsWith single_room b) with
  | none => none
  | some b => some (b, pyStrip (pyReplace single_room b))

/-- The nested dict `self.room_schedule`: building → room number → day →
list of booked intervals, all insertion-ordered. -/
abbrev DaySchedule := List (String × List (Nat × Nat))
abbrev RoomMap := List (String × DaySchedule)
abbrev BuildingMap := List (String × RoomMap)

/-- Update the value at key `k` of an insertion-ordered association list,
inserting `f dflt` at the end when the key is absent (Python dict
semantics). -/
def updateAssoc (k : String) (f : α → α) (dflt : α) : List (String × α) → List (String × α)
  | [] => [(k, f dflt)]
  | (k', v) :: rest => if k' = k then (k', f v) :: rest else (k', v) :: updateAssoc k f dflt rest

/-- Lines 70-85: create the nested `building`/`room_number`/`day` keys
(always, lines 70-76), then append the interval when the times parse
(line 85); a time-format failure only skips the append (lines 79-84). -/
def insertRoomDay (sched : BuildingMap) (b r d : String) (iv? : Option (Nat × Nat)) : BuildingMap :=
  updateAssoc b
    (updateAssoc r
      (updateAssoc d (fun l => match iv? with | some iv => l ++ [iv] | none => l) [])
      [])
    [] sched

/-- The body of the `for single_room in room.split(',')` loop
(lines 64-85) for one already-trimmed room string. -/
def processSingleRoom (sched : BuildingMap) (rec : ExpandedRecord) (single_room : String) : BuildingMap :=
  match resolveRoom single_room with
  | none => sched
  | some (b, room_number) =>
    match parseHM rec.FreeFrom, parseHM rec.FreeTo with
    | some s, some e => insertRoomDay sched b room_number rec.Day (some (s, e))
    | _, _ => insertRoomDay sched b room_number rec.Day none

/-- One room cell (`row.get(room_col)`, lines 61-85): `None` is skipped by
the `pd.isna` check; otherwise the cell is split on commas and each piece
processed after trimming. -/
def processRoomCell (sched : BuildingMap) (rec : ExpandedRecord) : Option String → BuildingMap
  | none => sched
  | some room => (pySplit room ",").foldl (fun sc piece => processSingleRoom sc rec (pyStrip piece)) sched

/-- Embedding of `RoomScheduler.extract_room_schedule` (lines 58-85): every record in
order, the `RoomA` column before the `RoomB` column. -/
def extract_room_schedule (records : List ExpandedRecord) : BuildingMap :=
  records.foldl (fun sched rec => processRoomCell (processRoomCell sched rec rec.RoomA) rec rec.RoomB) []

/-- Minutes value of `datetime.strptime('09:30', '%H:%M')`. -/
def operating_start : Nat := 570

/-- Minutes value of `datetime.strptime('22:00', '%H:%M')`. -/
def operating_end : Nat := 1320

/-- Minutes value of `timedelta(minutes=30)`. -/
def min_free_duration : Nat := 30

/-- The comparison of `booked_times.sort(key=lambda x: x[0])`.  Python's
`list.sort` is stable; sorting with `List.insertionSort` over this
reflexive relation is stable in the same sense, hence computes the same
list. -/
def startLe (a b : Nat × Nat) : Prop := a.1 ≤ b.1

instance : DecidableRel startLe := fun a b => Nat.decLe a.1 b.1

/-- The interval sweep of `find_empty_rooms` (lines 102-117): `c` is
`current_time`, the input list is the sorted `booked_times`, and the final
clause is the trailing-gap check after the loop (lines 112-117). -/
def sweep : Nat → List (Nat × Nat) → List (Nat × Nat)
  | c, [] =>
    if c < operating_end ∧ min_free_duration ≤ operating_end - c then [(c, operating_end)] else []
  | c, (s, e) :: rest =>
    (if c < s ∧ min_free_duration ≤ s - c then [(c, s)] else []) ++ sweep (max c e) rest

/-- Lines 97-117: the free intervals of one day's booked list.  The list is
first sorted stably by start time (Python `list.sort` with a key); an empty
list yields the whole operating window (lines 99-100). -/
def find_free_times (booked : List (Nat × Nat)) : List (Nat × Nat) :=
  let sorted := List.insertionSort startLe booked
  if sorted.isEmpty then [(operating_start, operating_end)]
  else sweep operating_start sorted

/-- Model of `strftime('%H%M')` on a minutes-after-midnight value: zero-padded
two-digit hour followed by zero-padded two-digit minute. -/
def digitChar (n : Nat) : Char := Char.ofNat (48 + n)

def toHHMM (t : Nat) : String :=
  String.mk [digitChar (t / 60 / 10), digitChar (t / 60 % 10), digitChar (t % 60 / 10), digitChar (t % 60 % 10)]

/-- One row appended to `empty_rooms` (lines 119-125). -/
structure OutRow where
  building : String
  room : String
  day : String
  free_from : String
  free_to : String
deriving DecidableEq, Repr

/-- The rows appended for one room and one day (lines 118-125). -/
def dayRows (b r d : String) (booked : List (Nat × Nat)) : List OutRow :=
  (find_free_times booked).map fun g => ⟨b, r, d, toHHMM g.1, toHHMM g.2⟩

/-- The rows of one room: all six configured days in order, the booked
list defaulting to empty (`schedule.get(day, [])`, line 97). -/
def roomRows (b r : String) (dsched : DaySchedule) : List OutRow :=
  days.flatMap fun d => dayRows b r d ((dsched.lookup d).getD [])

/-- The rows of one building: its rooms in insertion order. -/
def buildingRows (b : String) (rooms : RoomMap) : List OutRow :=
  rooms.flatMap fun rsched => roomRows b rsched.1 rsched.2

/-- Embedding of `RoomScheduler.find_empty_rooms` (lines 87-127) applied to an already
built index: all buildings and rooms in insertion order, one output row
per free interval. -/
def find_empty_rooms (sched : BuildingMap) : List OutRow :=
  sched.flatMap fun brooms => buildingRows brooms.1 brooms.2

/-- The five-column sort key of `sort_values(by=['Building', 'Room Number',
'Day', 'Free From', 'Free To'])`. -/
def rowKey (r : OutRow) : List (List Char) :=
  [r.building.data, r.room.data, r.day.data, r.free_from.data, r.free_to.data]

/-- Lexicographic strict comparison of sort keys: the first column that
differs decides, by codepoint-lexicographic string comparison. -/
def keyLt : List (List Char) → List (List Char) → Bool
  | [], _ => false
  | _ :: _, [] => false
  | a :: as, b :: bs =>
    if ltChars a b then true
    else if ltChars b a then false
    else keyLt as bs

/-- Ascending (non-strict) order on output rows by the five-column key. -/
def rowLe (a b : OutRow) : Prop := keyLt (rowKey b) (rowKey a) = false

instance : DecidableRel rowLe := fun a b => instDecidableEqBool (keyLt (rowKey b) (rowKey a)) false

/-- Embedding of `RoomScheduler.save_empty_rooms_to_csv` (lines 129-132) up to the
point where the sorted rows are handed to the CSV adapter.  Rows that the
five-column key cannot distinguish are equal as rows (the key is the whole
row), so every comparison sort by this key produces this list. -/
def save_empty_rooms (sched : BuildingMap) : List OutRow :=
  List.insertionSort rowLe (find_empty_rooms sched)

/-! ## `EmptyRoomSchedule` (classroom.py lines 37-119) -/

/-- One row of the loaded CSV: times are the integer `HHMM` codes the CSV
columns hold (e.g. 930 for 09:30). -/
structure CsvRow where
  building : String
  room : String
  day : String
  free_from : Int
  free_to : Int
deriving DecidableEq, Repr

/-- The arguments of one `filter_classrooms` call. -/
structure FilterArgs where
  day : String
  from_time : Int
  to_time : Int
  building : Option String
deriving DecidableEq, Repr

/-- The mutable state of an `EmptyRoomSchedule` object: `self.df` and
`self._original`. -/
structure ScheduleState where
  df : List CsvRow
  original : List CsvRow
deriving DecidableEq, Repr

/-- Embedding of `__init__` (lines 47-56): load the CSV into `df` and keep a copy as
`_original`. -/
def initSchedule (csv : List CsvRow) : ScheduleState := ⟨csv, csv⟩

/-- The row predicate of `filter_classrooms` (lines 100-107).  Python's
`if building:` is a truthiness test, so the building clause is applied
only when a building argument was supplied and is nonempty. -/
def rowCond (a : FilterArgs) (r : CsvRow) : Bool :=
  r.day == a.day && decide (r.free_from ≤ a.from_time) && decide (a.to_time ≤ r.free_to)
    && (match a.building with
        | some b => if b = "" then true else r.building == b
        | none => true)

/-- Embedding of `filter_classrooms` (lines 88-110): narrow `self.df` in place and
return it. -/
def filter_classrooms (st : ScheduleState) (a : FilterArgs) : ScheduleState × List CsvRow :=
  let df' := st.df.filter (rowCond a)
  (⟨df', st.original⟩, df')

/-- Embedding of `restore_classrooms` (lines 112-119): reset `self.df` to a copy of
`_original` and return it. -/
def restore_classrooms (st : ScheduleState) : ScheduleState × List CsvRow :=
  (⟨st.original, st.original⟩, st.original)

/-- A sequence of `filter_classrooms` calls applied to a state. -/
def applyFilters (st : ScheduleState) (calls : List FilterArgs) : ScheduleState :=
  calls.foldl (fun s a => (filter_classrooms s a).1) st

/-! ## Parser lemmas -/

/-- Whether a computation raised. -/
def isErr {ε α : Type} : Except ε α → Bool
  | .error _ => true
  | .ok _ => false

/-- If some row of the batch raises during expansion, the whole
`expand_lecture_times` loop raises: the exception is never swallowed. -/
theorem expand_isError_of_mem {rows : List RawRow} {row : RawRow}
    (hmem : row ∈ rows) (herr : isErr (expandRow row) = true) :
    isErr (expand_lecture_times rows) = true := by
  induction rows with
  | nil => cases hmem
  | cons r rest ih =>
    rcases List.mem_cons.mp hmem with h | h
    · subst h
      cases hr : expandRow row with
      | error e => unfold expand_lecture_times; rw [hr]; rfl
      | ok v => rw [hr] at herr; simp [isErr] at herr
    · cases hr : expandRow r with
      | error e => unfold expand_lecture_times; rw [hr]; rfl
      | ok v =>
        have hrec := ih h
        cases hrest : expand_lecture_times rest with
        | error e => unfold expand_lecture_times; rw [hr, hrest]; rfl
        | ok w => rw [hrest] at hrec; simp [isErr] at hrec

/-- When the parser succeeds, a row expands by running `tokensToRecords`
on the parsed tokens. -/
theorem expandRow_ok {row : RawRow} {ts : List Token}
    (h : parse_lecture_time row.lecture_time = .ok ts) :
    expandRow row = tokensToRecords row ts := by
  unfold expandRow
  rw [h]
  rfl

/-! ## Claim C1

The spec asserts that a description with day/time segments but no
trailing room list parses to tokens with both room fields null and that
these tokens flow through record expansion without error.  The code
instead stores only a `room: None` key on such tokens; `expand_lecture_times`
then reads `parsed_time['room_a']`, which raises `KeyError`, so any such
description aborts the whole expansion.  The spec's text (a room-less
record "is a parse artifact, not itself an error" and "must still flow
downstream") together with the `room: None` initialiser in the code shows
the spec is the intent and the crash a slip. -/

/-- C1: on the failing input `"월[1~2] 09:00~10:15"` (one valid time
segment, no room-list suffix) the parser returns one token carrying valid
day/time data and no room keys, and record expansion raises `KeyError`
instead of producing an `ExpandedRecord`. -/
theorem claim_C1_bug_eval :
    parse_lecture_time "월[1~2] 09:00~10:15" =
      .ok [⟨"월", "09:00", "10:15", none⟩] ∧
    expand_lecture_times [⟨"row0", "월[1~2] 09:00~10:15"⟩] = .error "KeyError: room_a" := by
  constructor
  · decide
  · decide

/-! ## Claim C2

The claim quantifies over every description whose trailing room list has
three or more comma-separated entries.  The `raise ValueError` sits inside
`for entry in result`, so a description with such a room list but no
day/time segment returns `[]` without raising; the claim must be
restricted to descriptions with at least one day/time segment. -/

/-- C2 counterexample: `"(A101, A102, A103)"` has a trailing room list
with three entries and no exclusion keyword, yet parsing returns `ok []`
rather than raising. -/
theorem claim_C2_counterexample :
    searchRoom "(A101, A102, A103)" = some "A101, A102, A103" ∧
    (pySplit "A101, A102, A103" ",").length = 3 ∧
    (excludedKeywords.any fun k => containsSub "A101, A102, A103" k) = false ∧
    parse_lecture_time "(A101, A102, A103)" = .ok [] := by
  refine ⟨by decide, by decide, by decide, by decide⟩

/-- C2 (amended): for every description string with at least one day/time
segment whose trailing room-list segment splits on commas into three or
more entries and contains no exclusion keyword, parsing raises the fatal
`ValueError`, and any batch containing such a row aborts with an error
rather than skipping it. -/
theorem claim_C2_amended (s r : String)
    (h1 : findTimeMatches s ≠ [])
    (h2 : searchRoom s = some r)
    (h3 : ∀ k ∈ excludedKeywords, containsSub r k = false)
    (h4 : 2 < (pySplit r ",").length) :
    parse_lecture_time s = .error "room is more than 2" ∧
    ∀ rows : List RawRow, (∃ row ∈ rows, row.lecture_time = s) →
      isErr (expand_lecture_times rows) = true := by
  have hany : (excludedKeywords.any fun k => containsSub r k) = false := by
    simp only [List.any_eq_false]
    intro k hk
    simp [h3 k hk]
  have hne : ((findTimeMatches s).map fun t =>
      (⟨t.day, t.start_time, t.end_time, none⟩ : Token)).isEmpty = false := by
    rcases hm : findTimeMatches s with _ | ⟨t, ts⟩
    · exact absurd hm h1
    · simp
  have hparse : parse_lecture_time s = .error "room is more than 2" := by
    unfold parse_lecture_time
    rw [h2]
    simp [hany, hne, h4]
  refine ⟨hparse, ?_⟩
  rintro rows ⟨row, hmem, hrow⟩
  refine expand_isError_of_mem hmem ?_
  unfold expandRow
  rw [hrow, hparse]
  rfl

/-- C2 witness input: `"월[1~2] 09:00~10:15 (A101, A102, A103)"`. -/
theorem claim_C2_amended_witness :
    parse_lecture_time "월[1~2] 09:00~10:15 (A101, A102, A103)" =
      .error "room is more than 2" ∧
    isErr (expand_lecture_times [⟨"row0", "월[1~2] 09:00~10:15 (A101, A102, A103)"⟩]) = true := by
  have h := claim_C2_amended "월[1~2] 09:00~10:15 (A101, A102, A103)" "A101, A102, A103"
    (by decide) (by decide) (by decide) (by decide)
  exact ⟨h.1, h.2 [⟨"row0", "월[1~2] 09:00~10:15 (A101, A102, A103)"⟩]
    ⟨⟨"row0", "월[1~2] 09:00~10:15 (A101, A102, A103)"⟩, List.mem_singleton.mpr rfl, rfl⟩⟩

/-! ## Claim C3 -/

/-- C3: whenever the trailing room-list segment of a description contains
an exclusion keyword (온라인, 미배정 or 연구실), the parser returns the
empty token list — irrespective of the day/time segments before it — and
the row therefore expands to zero `ExpandedRecord`s without error. -/
theorem claim_C3_excluded (s r k : String)
    (h2 : searchRoom s = some r)
    (hk : k ∈ excludedKeywords) (hsub : containsSub r k = true) :
    parse_lecture_time s = .ok [] ∧
    ∀ row : RawRow, row.lecture_time = s → expandRow row = .ok [] := by
  have hany : (excludedKeywords.any fun k => containsSub r k) = true :=
    List.any_eq_true.mpr ⟨k, hk, hsub⟩
  have hparse : parse_lecture_time s = .ok [] := by
    unfold parse_lecture_time
    rw [h2]
    simp [hany]
  refine ⟨hparse, fun row hrow => ?_⟩
  unfold expandRow
  rw [hrow, hparse]
  rfl

/-- C3 witness input: `"월[1~2] 09:00~10:15 (온라인)"` has one day/time
segment, yet yields no tokens and no expanded records. -/
theorem claim_C3_excluded_witness :
    parse_lecture_time "월[1~2] 09:00~10:15 (온라인)" = .ok [] ∧
    expandRow ⟨"row0", "월[1~2] 09:00~10:15 (온라인)"⟩ = .ok [] := by
  have h := claim_C3_excluded "월[1~2] 09:00~10:15 (온라인)" "온라인" "온라인"
    (by decide) (by decide) (by decide)
  exact ⟨h.1, h.2 ⟨"row0", "월[1~2] 09:00~10:15 (온라인)"⟩ rfl⟩

/-! ## Claim C10 -/

/-- The field `_original` is written only by `__init__`: no sequence of filter
calls changes it. -/
theorem applyFilters_original (st : ScheduleState) (calls : List FilterArgs) :
    (applyFilters st calls).original = st.original := by
  induction calls generalizing st with
  | nil => rfl
  | cons a rest ih => exact ih ⟨st.df.filter (rowCond a), st.original⟩

/-- C10: after arbitrarily many `filter_classrooms` calls (each narrowing
the held frame in place), `restore_classrooms` returns the frame loaded at
construction, the object's state again holds that frame, and a subsequent
`filter_classrooms` call operates on the original data. -/
theorem claim_C10_restore_roundtrip (csv : List CsvRow) (calls : List FilterArgs) (a : FilterArgs) :
    (restore_classrooms (applyFilters (initSchedule csv) calls)).2 = csv ∧
    (restore_classrooms (applyFilters (initSchedule csv) calls)).1.df = csv ∧
    (filter_classrooms (restore_classrooms (applyFilters (initSchedule csv) calls)).1 a).2 =
      csv.filter (rowCond a) := by
  refine ⟨?_, ?_, ?_⟩
  · show (applyFilters (initSchedule csv) calls).original = csv
    rw [applyFilters_original]; rfl
  · show (applyFilters (initSchedule csv) calls).original = csv
    rw [applyFilters_original]; rfl
  · show ((applyFilters (initSchedule csv) calls).original).filter (rowCond a) =
      csv.filter (rowCond a)
    rw [applyFilters_original]; rfl

/-! ## The interval sweep -/

instance : IsTotal (Nat × Nat) startLe := ⟨fun a b => Nat.le_total a.1 b.1⟩

instance : IsTrans (Nat × Nat) startLe := ⟨fun _ _ _ hab hbc => Nat.le_trans hab hbc⟩

/-- Every gap emitted by the sweep starts at or after the cursor, is
nonempty, and is separated from every interval of the (sorted) remaining
booked list: the booked interval lies entirely at or after the gap's end,
or entirely at or before the gap's start. -/
theorem sweep_sep (l : List (Nat × Nat)) : ∀ c : Nat, List.Sorted startLe l →
    ∀ g ∈ sweep c l, c ≤ g.1 ∧ g.1 < g.2 ∧ ∀ p ∈ l, g.2 ≤ p.1 ∨ p.2 ≤ g.1 := by
  induction l with
  | nil =>
    intro c _ g hg
    unfold sweep at hg
    by_cases hc : c < operating_end ∧ min_free_duration ≤ operating_end - c
    · rw [if_pos hc] at hg
      simp only [List.mem_singleton] at hg
      subst hg
      exact ⟨le_refl c, hc.1, by simp⟩
    · rw [if_neg hc] at hg; cases hg
  | cons p rest ih =>
    intro c hs g hg
    obtain ⟨s, e⟩ := p
    unfold sweep at hg
    rcases List.mem_append.mp hg with h | h
    · by_cases hc : c < s ∧ min_free_duration ≤ s - c
      · rw [if_pos hc] at h
        simp only [List.mem_singleton] at h
        subst h
        refine ⟨le_refl c, hc.1, ?_⟩
        intro q hq
        rcases List.mem_cons.mp hq with h1 | h2
        · subst h1; exact Or.inl (le_refl s)
        · exact Or.inl ((List.sorted_cons.mp hs).1 q h2)
      · rw [if_neg hc] at h; cases h
    · have hrec := ih (max c e) (List.sorted_cons.mp hs).2 g h
      refine ⟨le_trans (le_max_left c e) hrec.1, hrec.2.1, ?_⟩
      intro q hq
      rcases List.mem_cons.mp hq with h1 | h2
      · subst h1; exact Or.inr (le_trans (le_max_right c e) hrec.1)
      · exact hrec.2.2 q h2

/-- Every gap emitted by the sweep respects the minimum duration, starts
at or after the initial cursor, and — provided every booked interval
starts no later than the operating end — ends at or before the operating
end. -/
theorem sweep_bounds (l : List (Nat × Nat)) : ∀ c : Nat, operating_start ≤ c →
    (∀ p ∈ l, p.1 ≤ operating_end) →
    ∀ g ∈ sweep c l,
      operating_start ≤ g.1 ∧ g.1 < g.2 ∧ min_free_duration ≤ g.2 - g.1 ∧ g.2 ≤ operating_end := by
  induction l with
  | nil =>
    intro c hc _ g hg
    unfold sweep at hg
    by_cases h : c < operating_end ∧ min_free_duration ≤ operating_end - c
    · rw [if_pos h] at hg
      simp only [List.mem_singleton] at hg
      subst hg
      exact ⟨hc, h.1, h.2, le_refl _⟩
    · rw [if_neg h] at hg; cases hg
  | cons p rest ih =>
    intro c hc hends g hg
    obtain ⟨s, e⟩ := p
    unfold sweep at hg
    rcases List.mem_append.mp hg with h | h
    · by_cases hcs : c < s ∧ min_free_duration ≤ s - c
      · rw [if_pos hcs] at h
        simp only [List.mem_singleton] at h
        subst h
        exact ⟨hc, hcs.1, hcs.2, hends (s, e) (List.mem_cons_self _ _)⟩
      · rw [if_neg hcs] at h; cases h
    · exact ih (max c e) (le_trans hc (le_max_left c e))
        (fun q hq => hends q (List.mem_cons_of_mem _ hq)) g h

/-! ## Claim C5 -/

/-- C5: no free interval computed for a booked-interval list overlaps any
booked interval of that list: no minute lies both in an emitted gap and in
a booked interval. -/
theorem claim_C5_no_overlap (booked : List (Nat × Nat)) (f : Nat × Nat)
    (hf : f ∈ find_free_times booked) (p : Nat × Nat) (hp : p ∈ booked) (t : Nat)
    (hft : f.1 ≤ t) (htf : t < f.2) : ¬(p.1 ≤ t ∧ t < p.2) := by
  unfold find_free_times at hf
  rcases hsort : List.insertionSort startLe booked with _ | ⟨q, qs⟩ <;> rw [hsort] at hf
  · have hperm := List.perm_insertionSort startLe booked
    rw [hsort] at hperm
    rw [List.Perm.eq_nil hperm.symm] at hp
    cases hp
  · simp only [List.isEmpty_cons, if_false, Bool.false_eq_true] at hf
    have hsorted := List.sorted_insertionSort startLe booked
    rw [hsort] at hsorted
    have hmem : p ∈ q :: qs := by
      rw [← hsort]
      exact (List.perm_insertionSort startLe booked).mem_iff.mpr hp
    intro hpt
    rcases (sweep_sep (q :: qs) operating_start hsorted f hf).2.2 p hmem with h | h <;> omega

/-- C5 witness: the gap `[09:30, 10:00)` before the booking `[10:00, 11:00)`
does not contain the booked minute 10:15 nor any other booked minute. -/
theorem claim_C5_no_overlap_witness :
    (570, 600) ∈ find_free_times [(600, 660)] ∧ ¬((600 ≤ 575 ∧ 575 < 660)) :=
  ⟨by decide, claim_C5_no_overlap [(600, 660)] (570, 600) (by decide) (600, 660)
    (by decide) 575 (by decide) (by decide)⟩

/-! ## Claim C6

The claim is universally quantified over every booked-interval list, but
the sweep emits a candidate gap ending at the start of the next booked
interval with no clamp to the operating window: a booked interval that
starts after 22:00 makes the preceding gap end after 22:00.  The claim
holds once the booked starts are bounded by the operating end. -/

/-- C6 counterexample: a single booked interval `[22:30, 23:00)` produces
the free interval `[09:30, 22:30)`, which extends past the operating end
22:00. -/
theorem claim_C6_counterexample :
    find_free_times [(1350, 1380)] = [(570, 1350)] ∧
    ¬(∀ f ∈ find_free_times [(1350, 1380)], f.2 ≤ operating_end) := by
  refine ⟨by decide, by decide⟩

/-- C6 (amended): provided every booked interval starts no later than the
operating end (true of the crawler's data, whose times come from `HH:MM`
cells of same-day lectures), every emitted free interval has duration at
least 30 minutes and lies within the operating window `[09:30, 22:00)`. -/
theorem claim_C6_amended (booked : List (Nat × Nat))
    (hb : ∀ p ∈ booked, p.1 ≤ operating_end) (f : Nat × Nat)
    (hf : f ∈ find_free_times booked) :
    min_free_duration ≤ f.2 - f.1 ∧ operating_start ≤ f.1 ∧ f.1 < f.2 ∧ f.2 ≤ operating_end := by
  unfold find_free_times at hf
  rcases hsort : List.insertionSort startLe booked with _ | ⟨q, qs⟩ <;> rw [hsort] at hf
  · simp only [List.isEmpty_nil, if_true] at hf
    rw [List.mem_singleton] at hf
    subst hf
    refine ⟨by decide, by decide, by decide, by decide⟩
  · simp only [List.isEmpty_cons, if_false, Bool.false_eq_true] at hf
    have hends : ∀ p ∈ q :: qs, p.1 ≤ operating_end := by
      intro p hp
      refine hb p ?_
      rw [← hsort] at hp
      exact (List.perm_insertionSort startLe booked).mem_iff.mp hp
    have h := sweep_bounds (q :: qs) operating_start (le_refl _) hends f hf
    exact ⟨h.2.2.1, h.1, h.2.1, h.2.2.2⟩

/-- C6 amended witness: the bookings `[10:00, 11:00)` satisfy the start
bound, and the emitted gap `[09:30, 10:00)` satisfies all window and
duration constraints. -/
theorem claim_C6_amended_witness :
    (570, 600) ∈ find_free_times [(600, 660)] ∧
    min_free_duration ≤ 600 - 570 ∧ operating_start ≤ 570 ∧ 570 < 600 ∧ 600 ≤ operating_end :=
  ⟨by decide, claim_C6_amended [(600, 660)] (by decide) (570, 600) (by decide)⟩

/-! ## Claim C4: coverage determines the sweep output

The pointwise booked-coverage of an interval list is defined, and the
sweep is shown to depend on the booked list only through its coverage
(for lists of well-formed intervals).  Replacing a set of overlapping or
nested intervals by their union interval preserves coverage, so the free
intervals are invariant under any such collapsing. -/

/-- Minute `t` is covered by some interval of `l`. -/
def covers (l : List (Nat × Nat)) (t : Nat) : Prop := ∃ p ∈ l, p.1 ≤ t ∧ t < p.2

theorem covers_nil (t : Nat) : covers [] t ↔ False := by
  constructor
  · rintro ⟨p, hp, _⟩; cases hp
  · intro h; cases h

theorem covers_cons {p : Nat × Nat} {l : List (Nat × Nat)} {t : Nat} :
    covers (p :: l) t ↔ (p.1 ≤ t ∧ t < p.2) ∨ covers l t := by
  constructor
  · rintro ⟨q, hq, ht⟩
    rcases List.mem_cons.mp hq with h | h
    · subst h; exact Or.inl ht
    · exact Or.inr ⟨q, h, ht⟩
  · rintro (h | ⟨q, hq, ht⟩)
    · exact ⟨p, List.mem_cons_self _ _, h⟩
    · exact ⟨q, List.mem_cons_of_mem _ hq, ht⟩

theorem covers_perm {l l' : List (Nat × Nat)} (h : l.Perm l') (t : Nat) :
    covers l t ↔ covers l' t := by
  constructor <;> rintro ⟨p, hp, ht⟩
  · exact ⟨p, h.mem_iff.mp hp, ht⟩
  · exact ⟨p, h.mem_iff.mpr hp, ht⟩

/-- Collapse overlapping or touching intervals of a start-sorted list into
their unions (proof-side normal form; not part of the source program). -/
def mergeNorm : List (Nat × Nat) → List (Nat × Nat)
  | [] => []
  | [p] => [p]
  | (s₁, e₁) :: (s₂, e₂) :: rest =>
    if s₂ ≤ e₁ then mergeNorm ((s₁, max e₁ e₂) :: rest)
    else (s₁, e₁) :: mergeNorm ((s₂, e₂) :: rest)
termination_by l => l.length

/-- Collapsing one overlap step does not change the sweep: the booked
interval swallowed by its predecessor emits no gap (its start is at or
before the cursor), and the cursor advances to the same place. -/
theorem sweep_merge_step (c s₁ e₁ s₂ e₂ : Nat) (rest : List (Nat × Nat)) (h : s₂ ≤ e₁) :
    sweep c ((s₁, e₁) :: (s₂, e₂) :: rest) = sweep c ((s₁, max e₁ e₂) :: rest) := by
  simp only [sweep]
  have h2 : ¬(max c e₁ < s₂ ∧ min_free_duration ≤ s₂ - max c e₁) := by
    unfold min_free_duration; omega
  rw [if_neg h2]
  have h3 : max (max c e₁) e₂ = max c (max e₁ e₂) := Nat.max_assoc c e₁ e₂
  rw [h3]
  rfl

/-- The sweep is invariant under overlap collapsing. -/
theorem sweep_mergeNorm (l : List (Nat × Nat)) : ∀ c : Nat, sweep c (mergeNorm l) = sweep c l := by
  induction l using mergeNorm.induct with
  | case1 => intro c; simp only [mergeNorm]
  | case2 p => intro c; simp only [mergeNorm]
  | case3 s₁ e₁ s₂ e₂ rest h ih =>
    intro c
    simp only [mergeNorm, if_pos h]
    rw [ih c, sweep_merge_step c s₁ e₁ s₂ e₂ rest h]
  | case4 s₁ e₁ s₂ e₂ rest h ih =>
    intro c
    simp only [mergeNorm, if_neg h]
    simp only [sweep]
    rw [ih (max c e₁)]
    simp only [sweep]

/-- Overlap collapsing preserves coverage (for a start-sorted list). -/
theorem covers_mergeNorm (l : List (Nat × Nat)) (hs : List.Sorted startLe l) :
    ∀ t : Nat, covers (mergeNorm l) t ↔ covers l t := by
  induction l using mergeNorm.induct with
  | case1 => intro t; simp only [mergeNorm]
  | case2 p => intro t; simp only [mergeNorm]
  | case3 s₁ e₁ s₂ e₂ rest h ih =>
    intro t
    have h12 : s₁ ≤ s₂ := (List.sorted_cons.mp hs).1 (s₂, e₂) (List.mem_cons_self _ _)
    have hs' : List.Sorted startLe ((s₁, max e₁ e₂) :: rest) := by
      rw [List.sorted_cons] at hs ⊢
      exact ⟨fun b hb => hs.1 b (List.mem_cons_of_mem _ hb), (List.sorted_cons.mp hs.2).2⟩
    simp only [mergeNorm, if_pos h]
    rw [ih hs' t]
    simp only [covers_cons]
    have key : (s₁ ≤ t ∧ t < max e₁ e₂) ↔ ((s₁ ≤ t ∧ t < e₁) ∨ (s₂ ≤ t ∧ t < e₂)) := by omega
    rw [key, or_assoc]
  | case4 s₁ e₁ s₂ e₂ rest h ih =>
    intro t
    simp only [mergeNorm, if_neg h]
    simp only [covers_cons]
    rw [ih (List.sorted_cons.mp hs).2 t]
    simp only [covers_cons]

/-- A canonical booked list: every interval nonempty, consecutive
intervals strictly separated. -/
def Canonical (l : List (Nat × Nat)) : Prop :=
  (∀ p ∈ l, p.1 < p.2) ∧ List.Chain' (fun p q : Nat × Nat => p.2 < q.1) l

theorem canonical_tail {p : Nat × Nat} {l : List (Nat × Nat)} (h : Canonical (p :: l)) :
    Canonical l :=
  ⟨fun q hq => h.1 q (List.mem_cons_of_mem _ hq), h.2.tail⟩

/-- In a canonical list, every interval of the tail starts strictly after
the head interval ends. -/
theorem canonical_gt_head : ∀ (r : List (Nat × Nat)) (s e : Nat), Canonical ((s, e) :: r) →
    ∀ p ∈ r, e < p.1 := by
  intro r
  induction r with
  | nil => intro s e _ p hp; cases hp
  | cons q rest ih =>
    intro s e hc p hp
    have hch := hc.2
    rw [List.chain'_cons] at hch
    rcases List.mem_cons.mp hp with h1 | h2
    · subst h1; exact hch.1
    · have hq : Canonical (q :: rest) := canonical_tail hc
      have h3 := ih q.1 q.2 hq p h2
      have h4 : q.1 < q.2 := hc.1 q (List.mem_cons_of_mem _ (List.mem_cons_self _ _))
      have h5 : e < q.1 := hch.1
      omega

/-- The function `mergeNorm` keeps the head start and never shrinks the head end
(fuel-indexed version for the induction). -/
theorem mergeNorm_head_aux : ∀ (n : Nat) (l : List (Nat × Nat)) (s e : Nat), l.length ≤ n →
    ∃ e' tl, mergeNorm ((s, e) :: l) = (s, e') :: tl ∧ e ≤ e' := by
  intro n
  induction n with
  | zero =>
    intro l s e hl
    have hnil : l = [] := List.length_eq_zero.mp (Nat.le_zero.mp hl)
    subst hnil
    exact ⟨e, [], by simp only [mergeNorm], le_refl _⟩
  | succ n ih =>
    intro l s e hl
    match l with
    | [] => exact ⟨e, [], by simp only [mergeNorm], le_refl _⟩
    | (s₂, e₂) :: rest =>
      by_cases h : s₂ ≤ e
      · obtain ⟨e', tl, heq, hle⟩ := ih rest s (max e e₂)
          (by simp only [List.length_cons] at hl; omega)
        refine ⟨e', tl, ?_, le_trans (le_max_left _ _) hle⟩
        rw [← heq]
        simp only [mergeNorm, if_pos h]
      · refine ⟨e, mergeNorm ((s₂, e₂) :: rest), ?_, le_refl _⟩
        simp only [mergeNorm, if_neg h]

theorem mergeNorm_head (l : List (Nat × Nat)) (s e : Nat) :
    ∃ e' tl, mergeNorm ((s, e) :: l) = (s, e') :: tl ∧ e ≤ e' :=
  mergeNorm_head_aux l.length l s e (le_refl _)

/-- The result of `mergeNorm` on a start-sorted list of nonempty intervals is
canonical. -/
theorem mergeNorm_canonical (l : List (Nat × Nat)) (hs : List.Sorted startLe l)
    (hv : ∀ p ∈ l, p.1 < p.2) : Canonical (mergeNorm l) := by
  revert hs hv
  induction l using mergeNorm.induct with
  | case1 =>
    intro hs hv
    simp only [mergeNorm]
    exact ⟨fun p hp => absurd hp (List.not_mem_nil p), List.chain'_nil⟩
  | case2 p =>
    intro hs hv
    simp only [mergeNorm]
    refine ⟨fun q hq => ?_, List.chain'_singleton p⟩
    rw [List.mem_singleton.mp hq]
    exact hv p (List.mem_singleton.mpr rfl)
  | case3 s₁ e₁ s₂ e₂ rest h ih =>
    intro hs hv
    simp only [mergeNorm, if_pos h]
    apply ih
    · rw [List.sorted_cons] at hs ⊢
      exact ⟨fun b hb => hs.1 b (List.mem_cons_of_mem _ hb), (List.sorted_cons.mp hs.2).2⟩
    · intro p hp
      rcases List.mem_cons.mp hp with h1 | h2
      · subst h1
        have hv1 : s₁ < e₁ := hv (s₁, e₁) (List.mem_cons_self _ _)
        show s₁ < max e₁ e₂
        omega
      · exact hv p (List.mem_cons_of_mem _ (List.mem_cons_of_mem _ h2))
  | case4 s₁ e₁ s₂ e₂ rest h ih =>
    intro hs hv
    simp only [mergeNorm, if_neg h]
    have hcan := ih (List.sorted_cons.mp hs).2 (fun p hp => hv p (List.mem_cons_of_mem _ hp))
    obtain ⟨e', tl, heq, _⟩ := mergeNorm_head rest s₂ e₂
    rw [heq] at hcan ⊢
    refine ⟨?_, ?_⟩
    · intro p hp
      rcases List.mem_cons.mp hp with h1 | h2
      · subst h1; exact hv (s₁, e₁) (List.mem_cons_self _ _)
      · exact hcan.1 p h2
    · rw [List.chain'_cons]
      exact ⟨by show e₁ < s₂; omega, hcan.2⟩

/-- Every minute covered by a canonical list lies at or after its head
start. -/
theorem canonical_covers_ge {s e : Nat} {r : List (Nat × Nat)} (hc : Canonical ((s, e) :: r))
    {t : Nat} (h : covers ((s, e) :: r) t) : s ≤ t := by
  obtain ⟨q, hq, h1, h2⟩ := h
  rcases List.mem_cons.mp hq with hh | hh
  · subst hh; exact h1
  · have h3 := canonical_gt_head r s e hc q hh
    have h4 : s < e := hc.1 (s, e) (List.mem_cons_self _ _)
    have h1' : q.1 ≤ t := h1
    omega

/-- The head end of a canonical list is uncovered. -/
theorem canonical_not_covers_end {s e : Nat} {r : List (Nat × Nat)}
    (hc : Canonical ((s, e) :: r)) : ¬ covers ((s, e) :: r) e := by
  rintro ⟨q, hq, h1, h2⟩
  rcases List.mem_cons.mp hq with hh | hh
  · subst hh
    have h2' : e < e := h2
    omega
  · have h3 := canonical_gt_head r s e hc q hh
    have h1' : q.1 ≤ e := h1
    omega

/-- The tail of a canonical list covers exactly the covered minutes at or
after the head's end. -/
theorem canonical_covers_tail {s e : Nat} {r : List (Nat × Nat)} (hc : Canonical ((s, e) :: r))
    (t : Nat) : covers r t ↔ (covers ((s, e) :: r) t ∧ e ≤ t) := by
  constructor
  · rintro ⟨q, hq, h1, h2⟩
    have h3 := canonical_gt_head r s e hc q hq
    have h1' : q.1 ≤ t := h1
    exact ⟨⟨q, List.mem_cons_of_mem _ hq, h1, h2⟩, by omega⟩
  · rintro ⟨⟨q, hq, h1, h2⟩, het⟩
    rcases List.mem_cons.mp hq with hh | hh
    · subst hh
      have h2' : t < e := h2
      exact absurd h2' (by omega)
    · exact ⟨q, hh, h1, h2⟩

/-- Canonical lists are determined by their coverage. -/
theorem canonical_unique : ∀ (l₁ l₂ : List (Nat × Nat)),
    Canonical l₁ → Canonical l₂ → (∀ t, covers l₁ t ↔ covers l₂ t) → l₁ = l₂ := by
  intro l₁
  induction l₁ with
  | nil =>
    intro l₂ _ hc₂ hcov
    rcases l₂ with _ | ⟨⟨s, e⟩, r⟩
    · rfl
    · exfalso
      have hv : s < e := hc₂.1 (s, e) (List.mem_cons_self _ _)
      have hcv : covers ((s, e) :: r) s := ⟨(s, e), List.mem_cons_self _ _, le_refl _, hv⟩
      rw [← hcov s] at hcv
      exact (covers_nil s).mp hcv
  | cons p r₁ ih =>
    intro l₂ hc₁ hc₂ hcov
    obtain ⟨s₁, e₁⟩ := p
    rcases l₂ with _ | ⟨⟨s₂, e₂⟩, r₂⟩
    · exfalso
      have hv : s₁ < e₁ := hc₁.1 (s₁, e₁) (List.mem_cons_self _ _)
      have hcv : covers ((s₁, e₁) :: r₁) s₁ := ⟨(s₁, e₁), List.mem_cons_self _ _, le_refl _, hv⟩
      rw [hcov s₁] at hcv
      exact (covers_nil s₁).mp hcv
    · have hv₁ : s₁ < e₁ := hc₁.1 (s₁, e₁) (List.mem_cons_self _ _)
      have hv₂ : s₂ < e₂ := hc₂.1 (s₂, e₂) (List.mem_cons_self _ _)
      have hs12 : s₁ = s₂ := by
        have h₁ : s₂ ≤ s₁ := canonical_covers_ge hc₂
          ((hcov s₁).mp ⟨(s₁, e₁), List.mem_cons_self _ _, le_refl _, hv₁⟩)
        have h₂ : s₁ ≤ s₂ := canonical_covers_ge hc₁
          ((hcov s₂).mpr ⟨(s₂, e₂), List.mem_cons_self _ _, le_refl _, hv₂⟩)
        omega
      have he12 : e₁ = e₂ := by
        by_contra hne
        rcases Nat.lt_or_ge e₁ e₂ with hlt | hge
        · exact canonical_not_covers_end hc₁
            ((hcov e₁).mpr ⟨(s₂, e₂), List.mem_cons_self _ _, by omega, hlt⟩)
        · have hlt₂ : e₂ < e₁ := by omega
          exact canonical_not_covers_end hc₂
            ((hcov e₂).mp ⟨(s₁, e₁), List.mem_cons_self _ _, by omega, hlt₂⟩)
      have htail : ∀ t, covers r₁ t ↔ covers r₂ t := by
        intro t
        rw [canonical_covers_tail hc₁ t, canonical_covers_tail hc₂ t, hcov t, he12]
      rw [hs12, he12]
      exact congrArg _ (ih r₂ (canonical_tail hc₁) (canonical_tail hc₂) htail)

/-- C4: the gap computation depends on the booked-interval list only
through its pointwise coverage.  Replacing any set of overlapping or
nested booked intervals by their union interval preserves coverage, so
the emitted free intervals are unchanged by any such collapsing. -/
theorem claim_C4_coverage_invariant (l₁ l₂ : List (Nat × Nat))
    (h₁ : ∀ p ∈ l₁, p.1 < p.2) (h₂ : ∀ p ∈ l₂, p.1 < p.2)
    (hcov : ∀ t, covers l₁ t ↔ covers l₂ t) :
    find_free_times l₁ = find_free_times l₂ := by
  rcases hl₁ : l₁ with _ | ⟨p₁, r₁⟩ <;> rcases hl₂ : l₂ with _ | ⟨p₂, r₂⟩
  · rfl
  · exfalso
    subst hl₁; subst hl₂
    have hv : p₂.1 < p₂.2 := h₂ p₂ (List.mem_cons_self _ _)
    have hcv : covers (p₂ :: r₂) p₂.1 := ⟨p₂, List.mem_cons_self _ _, le_refl _, hv⟩
    rw [← hcov p₂.1] at hcv
    exact (covers_nil p₂.1).mp hcv
  · exfalso
    subst hl₁; subst hl₂
    have hv : p₁.1 < p₁.2 := h₁ p₁ (List.mem_cons_self _ _)
    have hcv : covers (p₁ :: r₁) p₁.1 := ⟨p₁, List.mem_cons_self _ _, le_refl _, hv⟩
    rw [hcov p₁.1] at hcv
    exact (covers_nil p₁.1).mp hcv
  · subst hl₁; subst hl₂
    have key : ∀ (l : List (Nat × Nat)) (p : Nat × Nat) (r : List (Nat × Nat)), l = p :: r →
        (∀ q ∈ l, q.1 < q.2) →
        find_free_times l = sweep operating_start (mergeNorm (List.insertionSort startLe l)) := by
      intro l p r hl hv
      have hperm := List.perm_insertionSort startLe l
      have hne : List.insertionSort startLe l ≠ [] := by
        intro hx
        rw [hx] at hperm
        have hnil : l = [] := List.Perm.eq_nil hperm.symm
        rw [hl] at hnil
        cases hnil
      unfold find_free_times
      rcases hx : List.insertionSort startLe l with _ | ⟨q, qs⟩
      · exact absurd hx hne
      · simp only [List.isEmpty_cons, Bool.false_eq_true, if_false]
        rw [← hx, sweep_mergeNorm]
    rw [key (p₁ :: r₁) p₁ r₁ rfl h₁, key (p₂ :: r₂) p₂ r₂ rfl h₂]
    have hmerge : mergeNorm (List.insertionSort startLe (p₁ :: r₁)) =
        mergeNorm (List.insertionSort startLe (p₂ :: r₂)) := by
      have hperm₁ := List.perm_insertionSort startLe (p₁ :: r₁)
      have hperm₂ := List.perm_insertionSort startLe (p₂ :: r₂)
      refine canonical_unique _ _
        (mergeNorm_canonical _ (List.sorted_insertionSort startLe _)
          (fun q hq => h₁ q (hperm₁.mem_iff.mp hq)))
        (mergeNorm_canonical _ (List.sorted_insertionSort startLe _)
          (fun q hq => h₂ q (hperm₂.mem_iff.mp hq)))
        (fun t => ?_)
      rw [covers_mergeNorm _ (List.sorted_insertionSort startLe _) t,
          covers_mergeNorm _ (List.sorted_insertionSort startLe _) t,
          covers_perm hperm₁ t, covers_perm hperm₂ t]
      exact hcov t
    rw [hmerge]

/-- C4 witness: the spec's instance — the overlapping bookings
`[10:00, 11:00)` and `[10:30, 12:00)` produce exactly the gaps of the
merged booking `[10:00, 12:00)`, namely `[09:30, 10:00)` and
`[12:00, 22:00)`. -/
theorem claim_C4_witness :
    find_free_times [(600, 660), (630, 720)] = find_free_times [(600, 720)] ∧
    find_free_times [(600, 660), (630, 720)] = [(570, 600), (720, 1320)] :=
  ⟨claim_C4_coverage_invariant [(600, 660), (630, 720)] [(600, 720)]
      (by decide) (by decide)
      (by intro t; simp [covers_cons, covers_nil]; omega),
   by decide⟩

/-! ## Claim C8

Resolution picks the first building of the fixed list whose name is a
prefix of the room string; since no building name is a prefix of another,
at most one can match, so the first match is also the longest match — that
part of the claim holds.  The room number, however, is computed by
`single_room.replace(building, '')`, which removes every occurrence of the
building name, not only the leading one: on a room string that contains
the building name again after the prefix the result differs from the
remainder-after-stripping-the-prefix that the claim describes. -/

theorem startsWithL_iff : ∀ (ps cs : List Char), startsWithL ps cs = true ↔ ps <+: cs := by
  intro ps
  induction ps with
  | nil => intro cs; simp [startsWithL, List.nil_prefix]
  | cons p ps ih =>
    intro cs
    cases cs with
    | nil => simp [startsWithL, List.prefix_nil]
    | cons c cs' =>
      rw [List.cons_prefix_cons]
      simp [startsWithL, ih cs']

/-- No building name is a prefix of a different building name. -/
theorem buildings_no_mutual :
    ∀ b₁ ∈ buildings, ∀ b₂ ∈ buildings, b₁ ≠ b₂ → startsWithL b₁.data b₂.data = false := by
  decide

/-- At most one building name can be a prefix of a given room string:
prefixes of one string are comparable, and distinct building names are
never prefixes of one another. -/
theorem matching_building_unique (room b₁ b₂ : String)
    (h₁ : b₁ ∈ buildings) (h₂ : b₂ ∈ buildings)
    (p₁ : pyStartsWith room b₁ = true) (p₂ : pyStartsWith room b₂ = true) : b₁ = b₂ := by
  by_contra hne
  have hp₁ : b₁.data <+: room.data := (startsWithL_iff _ _).mp p₁
  have hp₂ : b₂.data <+: room.data := (startsWithL_iff _ _).mp p₂
  rcases List.prefix_or_prefix_of_prefix hp₁ hp₂ with h | h
  · have hx := (startsWithL_iff b₁.data b₂.data).mpr h
    rw [buildings_no_mutual b₁ h₁ b₂ h₂ hne] at hx
    cases hx
  · have hx := (startsWithL_iff b₂.data b₁.data).mpr h
    rw [buildings_no_mutual b₂ h₂ b₁ h₁ (Ne.symm hne)] at hx
    cases hx

/-- Modelled from the spec's words, for comparison only: the room number
as "the remainder after stripping that prefix" (then trimmed, as the
source trims its result). -/
def specStripRemainder (room b : String) : String :=
  pyStrip (String.mk (room.data.drop b.data.length))

/-- C8 counterexample: on the room string `"A동A동101"` the code removes
every occurrence of `"A동"` and yields room number `"101"`, while the
remainder after stripping the prefix is `"A동101"`. -/
theorem claim_C8_counterexample :
    resolveRoom "A동A동101" = some ("A동", "101") ∧
    specStripRemainder "A동A동101" "A동" = "A동101" ∧
    ("101" : String) ≠ "A동101" := by
  refine ⟨by decide, by decide, by decide⟩

/-- C8 (amended): the index builder resolves the building as the unique —
hence longest — building-name prefix of the room string, silently skips a
room string matching no known prefix (no error, no schedule change), and
derives the room number by removing every occurrence of the building name
from the room string and trimming (which agrees with stripping the prefix
whenever the building name occurs only at the front). -/
theorem claim_C8_amended (room : String) :
    ((∀ b ∈ buildings, pyStartsWith room b = false) →
      resolveRoom room = none ∧
      ∀ (sched : BuildingMap) (rec : ExpandedRecord), processSingleRoom sched rec room = sched) ∧
    (∀ b n, resolveRoom room = some (b, n) →
      b ∈ buildings ∧ pyStartsWith room b = true ∧
      (∀ b' ∈ buildings, pyStartsWith room b' = true → b' = b) ∧
      n = pyStrip (pyReplace room b)) := by
  constructor
  · intro hnone
    have hfind : buildings.find? (fun b => pyStartsWith room b) = none := by
      rw [List.find?_eq_none]
      intro b hb
      simp [hnone b hb]
    have hres : resolveRoom room = none := by
      unfold resolveRoom
      rw [hfind]
    exact ⟨hres, fun sched rec => by unfold processSingleRoom; rw [hres]⟩
  · intro b n hres
    unfold resolveRoom at hres
    rcases hfind : buildings.find? (fun b => pyStartsWith room b) with _ | b' <;> rw [hfind] at hres
    · cases hres
    · rw [Option.some.injEq, Prod.mk.injEq] at hres
      obtain ⟨h1, h2⟩ := hres
      subst h1
      subst h2
      have hmem := List.mem_of_find?_eq_some hfind
      have hp := List.find?_some hfind
      exact ⟨hmem, hp,
        fun b'' hb'' hp'' => matching_building_unique room b'' b' hb'' hmem hp'' hp, rfl⟩

/-- C8 witness: `"X동101"` matches no building and is skipped without
touching the schedule; `"B동201"` resolves to building `"B동"` (the unique
matching prefix) with room number `"201"`. -/
theorem claim_C8_amended_witness :
    resolveRoom "X동101" = none ∧
    processSingleRoom [] ⟨"r", "월", "09:00", "10:15", none, none⟩ "X동101" = [] ∧
    resolveRoom "B동201" = some ("B동", "201") ∧
    "B동" ∈ buildings ∧ pyStartsWith "B동201" "B동" = true ∧
    (∀ b' ∈ buildings, pyStartsWith "B동201" b' = true → b' = "B동") ∧
    ("201" : String) = pyStrip (pyReplace "B동201" "B동") := by
  have h1 := (claim_C8_amended "X동101").1 (by decide)
  have h2 := (claim_C8_amended "B동201").2 "B동" "201" (by decide)
  exact ⟨h1.1, h1.2 [] ⟨"r", "월", "09:00", "10:15", none, none⟩, by decide,
    h2.1, h2.2.1, h2.2.2.1, h2.2.2.2⟩

/-! ## Claim C7 -/

/-- The row predicate "belongs to this building, room and day". -/
def matchBRD (b r d : String) (row : OutRow) : Bool :=
  row.building == b && row.room == r && row.day == d

theorem filter_flatMap_nil {α β : Type} (l : List α) (f : α → List β) (p : β → Bool)
    (h : ∀ a ∈ l, (f a).filter p = []) : (l.flatMap f).filter p = [] := by
  induction l with
  | nil => rfl
  | cons x xs ih =>
    rw [List.flatMap_cons, List.filter_append, h x (List.mem_cons_self _ _),
      ih fun a ha => h a (List.mem_cons_of_mem _ ha)]
    rfl

/-- A day block whose (building, room, day) label differs anywhere
contributes nothing to the filter. -/
theorem filter_dayRows_ne (b r d b' r' d' : String) (booked : List (Nat × Nat))
    (hne : b' ≠ b ∨ r' ≠ r ∨ d' ≠ d) :
    (dayRows b' r' d' booked).filter (matchBRD b r d) = [] := by
  rw [List.filter_eq_nil_iff]
  intro row hrow
  obtain ⟨g, _, rfl⟩ := List.mem_map.mp hrow
  simp only [matchBRD]
  rcases hne with h | h | h <;> simp [h]

theorem filter_roomRows_ne (b r d b' r' : String) (dsched : DaySchedule)
    (hne : b' ≠ b ∨ r' ≠ r) :
    (roomRows b' r' dsched).filter (matchBRD b r d) = [] := by
  refine filter_flatMap_nil _ _ _ fun d' _ => ?_
  exact filter_dayRows_ne b r d b' r' d' _ (by tauto)

theorem filter_buildingRows_ne (b r d b' : String) (rooms : RoomMap) (hne : b' ≠ b) :
    (buildingRows b' rooms).filter (matchBRD b r d) = [] := by
  refine filter_flatMap_nil _ _ _ fun rsched _ => ?_
  exact filter_roomRows_ne b r d b' rsched.1 rsched.2 (Or.inl hne)

/-- The day block of the matching (building, room, day) with no bookings
is exactly the full operating window row. -/
theorem filter_dayRows_empty (b r d : String) :
    (dayRows b r d []).filter (matchBRD b r d) = [⟨b, r, d, "0930", "2200"⟩] := by
  have h : dayRows b r d [] = [⟨b, r, d, "0930", "2200"⟩] := rfl
  rw [h]
  simp [matchBRD]

/-- Filtering the rows of one room for a day with an empty booked list
yields exactly the full-window row, for any duplicate-free day list
containing that day. -/
theorem filter_days_empty (b r d : String) (dsched : DaySchedule)
    (hempty : (dsched.lookup d).getD [] = []) :
    ∀ dl : List String, dl.Nodup → d ∈ dl →
      ((dl.flatMap fun d' => dayRows b r d' ((dsched.lookup d').getD [])).filter
        (matchBRD b r d)) = [⟨b, r, d, "0930", "2200"⟩] := by
  intro dl
  induction dl with
  | nil => intro _ hd; cases hd
  | cons x xs ih =>
    intro hnd hd
    rw [List.flatMap_cons, List.filter_append]
    rcases List.mem_cons.mp hd with h1 | h2
    · subst h1
      rw [hempty, filter_dayRows_empty]
      rw [filter_flatMap_nil _ _ _ fun d' hd' => filter_dayRows_ne b r d b r d' _
        (Or.inr (Or.inr (fun hx => ((List.nodup_cons.mp hnd).1 (hx ▸ hd')))))]
      rfl
    · have hxd : x ≠ d := fun hx => (List.nodup_cons.mp hnd).1 (hx ▸ h2)
      rw [filter_dayRows_ne b r d b r x _ (Or.inr (Or.inr hxd)),
        ih (List.nodup_cons.mp hnd).2 h2]
      rfl

/-- Filtering one building's rows for a room present with a booking-free
day yields exactly the full-window row, provided room keys are unique. -/
theorem filter_buildingRows_target (b r d : String) (rooms : RoomMap) (dsched : DaySchedule)
    (hnd : (rooms.map Prod.fst).Nodup) (hr : (r, dsched) ∈ rooms)
    (hd : d ∈ days) (hempty : (dsched.lookup d).getD [] = []) :
    (buildingRows b rooms).filter (matchBRD b r d) = [⟨b, r, d, "0930", "2200"⟩] := by
  induction rooms with
  | nil => cases hr
  | cons x xs ih =>
    rw [List.map_cons, List.nodup_cons] at hnd
    rw [buildingRows, List.flatMap_cons, List.filter_append]
    rcases List.mem_cons.mp hr with h1 | h2
    · subst h1
      rw [show (roomRows b (r, dsched).1 (r, dsched).2) =
          days.flatMap fun d' => dayRows b r d' ((dsched.lookup d').getD []) from rfl]
      rw [filter_days_empty b r d dsched hempty days (by decide) hd]
      rw [filter_flatMap_nil _ _ _ fun rs hrs => filter_roomRows_ne b r d b rs.1 rs.2
        (Or.inr fun hx => hnd.1 (hx ▸ (List.mem_map.mpr ⟨rs, hrs, rfl⟩)))]
      rfl
    · have hxr : x.1 ≠ r := fun hx =>
        hnd.1 (hx ▸ (List.mem_map.mpr ⟨(r, dsched), h2, rfl⟩))
      rw [filter_roomRows_ne b r d b x.1 x.2 (Or.inr hxr)]
      have hih : List.filter (matchBRD b r d)
          (xs.flatMap fun rsched => roomRows b rsched.1 rsched.2) =
          [⟨b, r, d, "0930", "2200"⟩] := ih hnd.2 h2
      rw [hih]
      rfl

/-- C7: for every building and room present in the index and every
configured day of the week whose booked-interval list is empty (in
particular every day the room has no bookings at all), the exported rows
for that (building, room, day) are exactly one free interval equal to the
full operating window `[09:30, 22:00)` — serialized as `"0930"`/`"2200"`. -/
theorem claim_C7_full_window (sched : BuildingMap) (b r d : String)
    (rooms : RoomMap) (dsched : DaySchedule)
    (hnd1 : (sched.map Prod.fst).Nodup)
    (hnd2 : ∀ x ∈ sched, (x.2.map Prod.fst).Nodup)
    (hb : (b, rooms) ∈ sched) (hr : (r, dsched) ∈ rooms)
    (hd : d ∈ days) (hempty : (dsched.lookup d).getD [] = []) :
    (find_empty_rooms sched).filter (matchBRD b r d) = [⟨b, r, d, "0930", "2200"⟩] := by
  induction sched with
  | nil => cases hb
  | cons x xs ih =>
    rw [List.map_cons, List.nodup_cons] at hnd1
    rw [find_empty_rooms, List.flatMap_cons, List.filter_append]
    rcases List.mem_cons.mp hb with h1 | h2
    · subst h1
      rw [show ((b, rooms) : String × RoomMap).1 = b from rfl,
        show ((b, rooms) : String × RoomMap).2 = rooms from rfl]
      rw [filter_buildingRows_target b r d rooms dsched
        (hnd2 (b, rooms) (List.mem_cons_self _ _)) hr hd hempty]
      rw [filter_flatMap_nil _ _ _ fun br hbr => filter_buildingRows_ne b r d br.1 br.2
        (fun hx => hnd1.1 (hx ▸ (List.mem_map.mpr ⟨br, hbr, rfl⟩)))]
      rfl
    · have hxb : x.1 ≠ b := fun hx =>
        hnd1.1 (hx ▸ (List.mem_map.mpr ⟨(b, rooms), h2, rfl⟩))
      rw [filter_buildingRows_ne b r d x.1 x.2 hxb]
      have hih : List.filter (matchBRD b r d)
          (xs.flatMap fun brooms => buildingRows brooms.1 brooms.2) =
          [⟨b, r, d, "0930", "2200"⟩] :=
        ih hnd1.2 (fun y hy => hnd2 y (List.mem_cons_of_mem _ hy)) h2
      rw [hih]
      rfl

/-- C7 witness: in an index holding one booking for A동 101 on 월, the day
화 (empty booked list) yields exactly the full-window row. -/
theorem claim_C7_full_window_witness :
    (find_empty_rooms [("A동", [("101", [("월", [(600, 660)])])])]).filter
      (matchBRD "A동" "101" "화") = [⟨"A동", "101", "화", "0930", "2200"⟩] :=
  claim_C7_full_window [("A동", [("101", [("월", [(600, 660)])])])] "A동" "101" "화"
    [("101", [("월", [(600, 660)])])] [("월", [(600, 660)])]
    (by decide) (by decide) (by decide) (by decide) (by decide) (by decide)

/-! ## Claim C9: order lemmas for the five-column sort key -/

theorem char_eq_of_toNat_eq {a b : Char} (h : a.toNat = b.toNat) : a = b :=
  Char.ext (UInt32.eq_of_val_eq (Fin.eq_of_val_eq h))

theorem ltChars_asymm : ∀ x y : List Char, ltChars x y = true → ltChars y x = false := by
  intro x
  induction x with
  | nil =>
    intro y h
    cases y with
    | nil => cases h
    | cons c cs => rfl
  | cons a as ih =>
    intro y h
    cases y with
    | nil => cases h
    | cons b bs =>
      simp only [ltChars] at h ⊢
      by_cases h1 : a.toNat < b.toNat
      · rw [if_pos h1] at h
        rw [if_neg (by omega), if_pos h1]
      · rw [if_neg h1] at h
        by_cases h2 : b.toNat < a.toNat
        · rw [if_pos h2] at h; cases h
        · rw [if_neg h2] at h
          rw [if_neg h2, if_neg h1]
          exact ih bs h

theorem ltChars_trichot : ∀ x y : List Char, ltChars x y = false → ltChars y x = false → x = y := by
  intro x
  induction x with
  | nil =>
    intro y h1 h2
    cases y with
    | nil => rfl
    | cons c cs => cases h1
  | cons a as ih =>
    intro y h1 h2
    cases y with
    | nil => cases h2
    | cons b bs =>
      simp only [ltChars] at h1 h2
      by_cases hab : a.toNat < b.toNat
      · rw [if_pos hab] at h1; cases h1
      · by_cases hba : b.toNat < a.toNat
        · rw [if_pos hba] at h2; cases h2
        · rw [if_neg hab, if_neg hba] at h1
          rw [if_neg hba, if_neg hab] at h2
          rw [char_eq_of_toNat_eq (by omega : a.toNat = b.toNat), ih bs h1 h2]

theorem ltChars_trans : ∀ x y z : List Char,
    ltChars x y = true → ltChars y z = true → ltChars x z = true := by
  intro x
  induction x with
  | nil =>
    intro y z h1 h2
    cases y with
    | nil => cases h1
    | cons b bs =>
      cases z with
      | nil => cases h2
      | cons c cs => rfl
  | cons a as ih =>
    intro y z h1 h2
    cases y with
    | nil => cases h1
    | cons b bs =>
      cases z with
      | nil => cases h2
      | cons c cs =>
        simp only [ltChars] at h1 h2 ⊢
        by_cases hab : a.toNat < b.toNat
        · by_cases hbc : b.toNat < c.toNat
          · rw [if_pos (by omega : a.toNat < c.toNat)]
          · rw [if_neg hbc] at h2
            by_cases hcb : c.toNat < b.toNat
            · rw [if_pos hcb] at h2; cases h2
            · rw [if_pos (by omega : a.toNat < c.toNat)]
        · rw [if_neg hab] at h1
          by_cases hba : b.toNat < a.toNat
          · rw [if_pos hba] at h1; cases h1
          · rw [if_neg hba] at h1
            by_cases hbc : b.toNat < c.toNat
            · rw [if_pos (by omega : a.toNat < c.toNat)]
            · rw [if_neg hbc] at h2
              by_cases hcb : c.toNat < b.toNat
              · rw [if_pos hcb] at h2; cases h2
              · rw [if_neg hcb] at h2
                rw [if_neg (by omega : ¬a.toNat < c.toNat), if_neg (by omega : ¬c.toNat < a.toNat)]
                exact ih bs cs h1 h2

theorem keyLt_asymm : ∀ x y : List (List Char), keyLt x y = true → keyLt y x = false := by
  intro x
  induction x with
  | nil => intro y h; cases h
  | cons a as ih =>
    intro y h
    cases y with
    | nil => cases h
    | cons b bs =>
      simp only [keyLt] at h ⊢
      by_cases hab : ltChars a b = true
      · rw [if_pos hab] at h
        rw [if_neg (by simp [ltChars_asymm a b hab]), if_pos hab]
      · rw [if_neg hab] at h
        by_cases hba : ltChars b a = true
        · rw [if_pos hba] at h; cases h
        · rw [if_neg hba] at h
          rw [if_neg hba, if_neg hab]
          exact ih bs h

theorem keyLt_cotrans : ∀ x y z : List (List Char), x.length = y.length → y.length = z.length →
    keyLt x z = true → keyLt x y = true ∨ keyLt y z = true := by
  intro x
  induction x with
  | nil => intro y z _ _ h; cases h
  | cons a as ih =>
    intro y z hxy hyz h
    cases z with
    | nil => cases h
    | cons c cs =>
      cases y with
      | nil => cases hxy
      | cons b bs =>
        simp only [keyLt] at h ⊢
        simp only [List.length_cons] at hxy hyz
        by_cases hab : ltChars a b = true
        · left; rw [if_pos hab]
        · by_cases hba : ltChars b a = true
          · right
            by_cases hac : ltChars a c = true
            · rw [if_pos (ltChars_trans b a c hba hac)]
            · rw [if_neg hac] at h
              by_cases hca : ltChars c a = true
              · rw [if_pos hca] at h; cases h
              · have hac' : a = c := ltChars_trichot a c
                  (by revert hac; cases ltChars a c <;> simp) (by revert hca; cases ltChars c a <;> simp)
                rw [if_pos (hac' ▸ hba)]
          · have hab' : a = b := ltChars_trichot a b
              (by revert hab; cases ltChars a b <;> simp) (by revert hba; cases ltChars b a <;> simp)
            subst hab'
            by_cases hac : ltChars a c = true
            · right; rw [if_pos hac]
            · rw [if_neg hac] at h
              by_cases hca : ltChars c a = true
              · rw [if_pos hca] at h; cases h
              · rw [if_neg hca] at h
                rcases ih bs cs (by omega) (by omega) h with hl | hr
                · left; rw [if_neg hab, if_neg hab, hl]  -- hmm see note below
                · right; rw [if_neg hac, if_neg hca, hr]

instance : IsTotal OutRow rowLe :=
  ⟨fun a b => by
    unfold rowLe
    cases hk : keyLt (rowKey b) (rowKey a) with
    | false => left; rfl
    | true => right; exact keyLt_asymm _ _ hk⟩

theorem rowKey_length (r : OutRow) : (rowKey r).length = 5 := rfl

instance : IsTrans OutRow rowLe :=
  ⟨fun a b c hab hbc => by
    unfold rowLe at hab hbc ⊢
    cases hk : keyLt (rowKey c) (rowKey a) with
    | false => rfl
    | true =>
      rcases keyLt_cotrans (rowKey c) (rowKey b) (rowKey a) rfl rfl hk with h | h
      · rw [hbc] at h; cases h
      · rw [hab] at h; cases h⟩

/-- A successful association-list lookup exhibits a member. -/
theorem lookup_mem : ∀ {ds : DaySchedule} {d : String} {l : List (Nat × Nat)},
    ds.lookup d = some l → (d, l) ∈ ds := by
  intro ds
  induction ds with
  | nil => intro d l h; cases h
  | cons x xs ih =>
    intro d l h
    obtain ⟨k, v⟩ := x
    simp only [List.lookup] at h
    cases hk : (d == k) with
    | true =>
      simp only [hk, Option.some.injEq] at h
      subst h
      have hdk : d = k := by simpa using hk
      subst hdk
      exact List.mem_cons_self _ _
    | false =>
      simp only [hk] at h
      exact List.mem_cons_of_mem _ (ih h)

/-- All sweep output endpoints stay below any common bound on the cursor,
the booked endpoints and the operating end (1440 covers `HH:MM` values). -/
theorem sweep_mem_bounds (l : List (Nat × Nat)) : ∀ c : Nat, c < 1440 →
    (∀ p ∈ l, p.1 < 1440 ∧ p.2 < 1440) → ∀ g ∈ sweep c l, g.1 < 1440 ∧ g.2 < 1440 := by
  induction l with
  | nil =>
    intro c hc _ g hg
    unfold sweep at hg
    by_cases h : c < operating_end ∧ min_free_duration ≤ operating_end - c
    · rw [if_pos h] at hg
      simp only [List.mem_singleton] at hg
      subst hg
      exact ⟨hc, show operating_end < 1440 by decide⟩
    · rw [if_neg h] at hg; cases hg
  | cons p rest ih =>
    intro c hc hb g hg
    obtain ⟨s, e⟩ := p
    unfold sweep at hg
    rcases List.mem_append.mp hg with h | h
    · by_cases hcs : c < s ∧ min_free_duration ≤ s - c
      · rw [if_pos hcs] at h
        simp only [List.mem_singleton] at h
        subst h
        exact ⟨hc, (hb (s, e) (List.mem_cons_self _ _)).1⟩
      · rw [if_neg hcs] at h; cases h
    · have he : e < 1440 := (hb (s, e) (List.mem_cons_self _ _)).2
      exact ih (max c e) (by omega) (fun q hq => hb q (List.mem_cons_of_mem _ hq)) g h

/-- Free-interval endpoints are below 1440 whenever all booked endpoints
are. -/
theorem find_free_times_bounds (booked : List (Nat × Nat))
    (hb : ∀ p ∈ booked, p.1 < 1440 ∧ p.2 < 1440) :
    ∀ g ∈ find_free_times booked, g.1 < 1440 ∧ g.2 < 1440 := by
  intro g hg
  unfold find_free_times at hg
  rcases hsort : List.insertionSort startLe booked with _ | ⟨q, qs⟩ <;> rw [hsort] at hg
  · simp only [List.isEmpty_nil, if_true, List.mem_singleton] at hg
    subst hg
    exact ⟨show operating_start < 1440 by decide, show operating_end < 1440 by decide⟩
  · simp only [List.isEmpty_cons, Bool.false_eq_true, if_false] at hg
    refine sweep_mem_bounds (q :: qs) operating_start (by decide) ?_ g hg
    intro p hp
    refine hb p ?_
    rw [← hsort] at hp
    exact (List.perm_insertionSort startLe booked).mem_iff.mp hp

theorem digitChar_isDigit (n : Nat) (h : n < 10) : (digitChar n).isDigit = true := by
  interval_cases n <;> decide

theorem toHHMM_length (t : Nat) : (toHHMM t).length = 4 := rfl

theorem toHHMM_digits (t : Nat) (h : t < 1440) : ∀ ch ∈ (toHHMM t).data, ch.isDigit = true := by
  intro ch hch
  have hch' : ch ∈ [digitChar (t / 60 / 10), digitChar (t / 60 % 10),
      digitChar (t % 60 / 10), digitChar (t % 60 % 10)] := hch
  simp only [List.mem_cons, List.not_mem_nil, or_false] at hch'
  rcases hch' with h1 | h1 | h1 | h1 <;> subst h1 <;> apply digitChar_isDigit <;> omega

/-- Every exported row's time cells come from `strftime('%H%M')` applied
to an in-range minute value. -/
theorem find_empty_rooms_hhmm (sched : BuildingMap)
    (hb : ∀ brooms ∈ sched, ∀ rsched ∈ brooms.2, ∀ dl ∈ rsched.2, ∀ p ∈ dl.2,
      p.1 < 1440 ∧ p.2 < 1440)
    (row : OutRow) (hrow : row ∈ find_empty_rooms sched) :
    ∃ t u, t < 1440 ∧ u < 1440 ∧ row.free_from = toHHMM t ∧ row.free_to = toHHMM u := by
  obtain ⟨brooms, hbr, hrow1⟩ := List.mem_flatMap.mp hrow
  obtain ⟨rsched, hrs, hrow2⟩ := List.mem_flatMap.mp hrow1
  obtain ⟨d, hd, hrow3⟩ := List.mem_flatMap.mp hrow2
  obtain ⟨g, hg, rfl⟩ := List.mem_map.mp hrow3
  have hbk : ∀ p ∈ (rsched.2.lookup d).getD [], p.1 < 1440 ∧ p.2 < 1440 := by
    rcases hlk : rsched.2.lookup d with _ | l
    · intro p hp
      exact absurd hp (List.not_mem_nil p)
    · intro p hp
      exact hb brooms hbr rsched hrs (d, l) (lookup_mem hlk) p hp
  have hf := find_free_times_bounds _ hbk g hg
  exact ⟨g.1, g.2, hf.1, hf.2, rfl, rfl⟩

/-- C9: the exporter hands the persistence adapter the computed rows
sorted ascending by the five-column key (building, room, day, free_from,
free_to) — compared lexicographically — as a permutation of the computed
rows, and every row's time cells are zero-padded four-digit `HHMM`
serializations of in-range minute values. -/
theorem claim_C9_export (sched : BuildingMap)
    (hb : ∀ brooms ∈ sched, ∀ rsched ∈ brooms.2, ∀ dl ∈ rsched.2, ∀ p ∈ dl.2,
      p.1 < 1440 ∧ p.2 < 1440) :
    List.Sorted rowLe (save_empty_rooms sched) ∧
    (save_empty_rooms sched).Perm (find_empty_rooms sched) ∧
    ∀ row ∈ save_empty_rooms sched, ∃ t u, t < 1440 ∧ u < 1440 ∧
      row.free_from = toHHMM t ∧ row.free_to = toHHMM u ∧
      row.free_from.length = 4 ∧ row.free_to.length = 4 ∧
      (∀ ch ∈ row.free_from.data, ch.isDigit = true) ∧
      (∀ ch ∈ row.free_to.data, ch.isDigit = true) := by
  refine ⟨List.sorted_insertionSort rowLe _, List.perm_insertionSort rowLe _, ?_⟩
  intro row hrow
  have hrow' : row ∈ find_empty_rooms sched :=
    (List.perm_insertionSort rowLe _).mem_iff.mp hrow
  obtain ⟨t, u, ht, hu, hft, htt⟩ := find_empty_rooms_hhmm sched hb row hrow'
  refine ⟨t, u, ht, hu, hft, htt, ?_, ?_, ?_, ?_⟩
  · rw [hft]; exact toHHMM_length t
  · rw [htt]; exact toHHMM_length u
  · rw [hft]; exact toHHMM_digits t ht
  · rw [htt]; exact toHHMM_digits u hu

/-- C9 witness: the sorted export of the one-booking index is a
permutation of the computed rows (and, by the theorem, sorted with
`HHMM`-serialized cells). -/
theorem claim_C9_export_witness :
    (save_empty_rooms [("A동", [("101", [("월", [(600, 660)])])])]).Perm
      (find_empty_rooms [("A동", [("101", [("월", [(600, 660)])])])]) ∧
    List.Sorted rowLe (save_empty_rooms [("A동", [("101", [("월", [(600, 660)])])])]) :=
  ⟨(claim_C9_export [("A동", [("101", [("월", [(600, 660)])])])] (by decide)).2.1,
   (claim_C9_export [("A동", [("101", [("월", [(600, 660)])])])] (by decide)).1⟩

end Sandol
